import Mathlib

/-!
Shallow embedding of the workout-tracker schedule/rotation engine
(src/app.py, class WorkoutTracker).

Modelling conventions:
* Calendar dates are `Int` days since an arbitrary epoch chosen so that
  day 0 falls on a Thursday (like 1970-01-01); Python's
  `date.weekday()` (Monday = 0) is `(d + 3) % 7` under this encoding,
  and Python's nonnegative `%` on ints coincides with `Int.emod`.
* A log entry's `date` field is a string in the source, parsed with
  `date.fromisoformat`; we model it as `Option Int`, `none` standing
  for an unparsable string (an unparsable string never equals any
  valid ISO rendering of a day, which is all the source compares it
  against).
* Firestore calls (`log_entry`, `save_state`) are modelled by returning
  the appended entries / the persisted state explicitly.
* Python floats in `_get_week_schedule` are modelled by the exact
  fractions they denote (exact for the operand ranges involved), and
  Python's builtin `round` (banker's rounding, half to even) as
  `pyRound` on a numerator/denominator pair.
-/

/-- LogEntry from the spec data model: one appended log record.
Fields mirror the dict written by `log_entry` in src/app.py. -/
structure LogEntry where
  date : Option Int
  workout_type : String
  status : String
deriving DecidableEq

/-- TrackerState: the singleton state document (`get_state` default shape:
cycle, position, last_log_date, rest_days_per_week). `last_log_date` is
`none` when never logged (or unparsable, which the source treats the same
way wherever it parses the field). -/
structure TrackerState where
  cycle : List String
  position : Nat
  last_log_date : Option Int
  rest_days_per_week : Int
deriving DecidableEq

/-- Python `date.weekday()` (Monday = 0) for a day number whose epoch
day 0 is a Thursday. -/
def weekdayOf (d : Int) : Int := (d + 3) % 7

/-- `today - timedelta(days=today.weekday())`: the Monday of `d`'s week. -/
def mondayOf (d : Int) : Int := d - weekdayOf d

/-- `WorkoutTracker.current_workout`: `self.cycle[self.position % len(self.cycle)]`. -/
def currentWorkout (st : TrackerState) : String :=
  st.cycle.getD (st.position % st.cycle.length) ""

/-- `WorkoutTracker._logged_today`: `state.get("last_log_date") == today.isoformat()`. -/
def loggedToday (st : TrackerState) (today : Int) : Bool :=
  st.last_log_date == some today

/-- `WorkoutTracker.mark_done`: guarded by `_logged_today`; logs the current
workout as done, advances `position` by one mod the cycle length, and sets
`last_log_date` to today. Returns the persisted state and the appended
log entries. -/
def markDone (st : TrackerState) (today : Int) : TrackerState × List LogEntry :=
  if st.last_log_date = some today then (st, [])
  else
    ({ st with
        position := (st.position + 1) % st.cycle.length,
        last_log_date := some today },
     [⟨some today, currentWorkout st, "done"⟩])

/-- `WorkoutTracker.mark_rest`: guarded by `_logged_today`; logs a rest
entry and sets `last_log_date` to today; `position` is not touched. -/
def markRest (st : TrackerState) (today : Int) : TrackerState × List LogEntry :=
  if st.last_log_date = some today then (st, [])
  else
    ({ st with last_log_date := some today },
     [⟨some today, "rest", "rest"⟩])

/-- One user/backfill action at a given date, as in the source: a confirmed
done, an unscheduled rest, or a reconciliation skip. -/
inductive UserAction where
  | adone (d : Int)
  | arest (d : Int)
  | askip (d : Int)
deriving DecidableEq

/-- Effect of one action on the tracker state, with the appended log
entries. `adone`/`arest` are `mark_done`/`mark_rest`; `askip` is the skip
branch of `_check_missed_days` (append a skip entry, position unchanged). -/
def applyAction (st : TrackerState) : UserAction → TrackerState × List LogEntry
  | .adone d => markDone st d
  | .arest d => markRest st d
  | .askip d => (st, [⟨some d, currentWorkout st, "skip"⟩])

/-- Fold a list of actions over the state (log entries dropped). -/
def applyActions (st : TrackerState) (acts : List UserAction) : TrackerState :=
  acts.foldl (fun s a => (applyAction s a).1) st

/-- An action sequence is confirmed when every `done`/`rest` in it fires on
a day that is not already logged (its `_logged_today` guard passes at the
moment it runs). -/
def confirmedActs (st : TrackerState) : List UserAction → Bool
  | [] => true
  | a :: rest =>
    (match a with
     | .adone d => !(st.last_log_date == some d)
     | .arest d => !(st.last_log_date == some d)
     | .askip _ => true) && confirmedActs (applyAction st a).1 rest

/-- Number of `done` actions in a sequence. -/
def countDones (acts : List UserAction) : Nat :=
  (acts.filter (fun a => match a with | .adone _ => true | _ => false)).length

/-- Loop body of `WorkoutTracker._get_streak`: scan entries (most recent
first) with an expected date; stop on parse failure or date mismatch;
count only `done` entries; always step `expected` back one day. -/
def streakLoop : List LogEntry → Int → Nat → Nat
  | [], _, streak => streak
  | e :: rest, expected, streak =>
    match e.date with
    | none => streak
    | some d =>
      if d ≠ expected then streak
      else streakLoop rest (expected - 1) (if e.status = "done" then streak + 1 else streak)

/-- `WorkoutTracker._get_streak` (with its early return on an empty
history). -/
def getStreak (entries : List LogEntry) (today : Int) : Nat :=
  if entries = [] then 0 else streakLoop entries today 0

/-- Loop body of `WorkoutTracker._rest_days_this_week`: unparsable dates
are skipped (`continue`), and every entry with status rest dated within
the Monday..today window bumps the count. -/
def restLoop : List LogEntry → Int → Int → Nat → Nat
  | [], _, _, count => count
  | e :: rest, monday, today, count =>
    match e.date with
    | none => restLoop rest monday today count
    | some d =>
      restLoop rest monday today
        (if monday ≤ d ∧ d ≤ today ∧ e.status = "rest" then count + 1 else count)

/-- `WorkoutTracker._rest_days_this_week`. -/
def restDaysThisWeek (entries : List LogEntry) (today : Int) : Nat :=
  restLoop entries (mondayOf today) today 0

/-- The `logged` dict of `_get_week_schedule` keeps the first entry seen
per date string; looking a day up in it is finding the first entry whose
date equals that day. -/
def firstEntryFor (entries : List LogEntry) (d : Int) : Option LogEntry :=
  entries.find? (fun e => e.date == some d)

/-- Python's builtin `round` (round half to even) applied to the exact
value of the nonnegative fraction `num / den` (`den > 0`): the float
`len(unlogged) / rest_remaining * k` of the source is exactly this
fraction for the small operand ranges the week view produces. -/
def pyRound (num den : Nat) : Nat :=
  let f := num / den
  let r := num % den
  if 2 * r < den then f
  else if den < 2 * r then f + 1
  else if f % 2 = 0 then f else f + 1

/-- Python list indexing `l[i]` for the indices `_get_week_schedule` can
produce (`-len(l) <= i < len(l)`): a negative index counts from the end. -/
def pyGet (l : List Nat) (i : Int) : Nat :=
  let j : Int := if i < 0 then i + l.length else i
  l.getD j.toNat 0

/-- The `rest_indices` computation of `_get_week_schedule`: when some rest
days remain and unlogged slots exist, for each k in 1..rest_remaining pick
`unlogged[min(round(len(unlogged)/rest_remaining * k) - 1, len(unlogged)-1)]`.
The Python set is used only for membership tests downstream, so it is
modelled as the list of added elements (membership-equivalent). -/
def restIndices (unlogged : List Nat) (restRemaining : Nat) : List Nat :=
  if 0 < restRemaining ∧ unlogged ≠ [] then
    (List.range restRemaining).map (fun k =>
      pyGet unlogged
        (min ((pyRound (unlogged.length * (k + 1)) restRemaining : Int) - 1)
             ((unlogged.length : Int) - 1)))
  else []

/-- One rendered line of the week view, keeping the data the source
interpolates into the line: a logged day's status and workout type, an
unfilled past day, a predicted rest day, or a predicted rotation day with
its label; each with the today-marker flag. -/
inductive DayCell where
  | logged (status : String) (wtype : String) (isToday : Bool)
  | past (isToday : Bool)
  | rest (isToday : Bool)
  | predicted (wtype : String) (isToday : Bool)
deriving DecidableEq

/-- Whether a cell is the predicted-rest rendering. -/
def DayCell.isRestCell : DayCell → Bool
  | .rest _ => true
  | _ => false

/-- The Monday..Sunday walk of `_get_week_schedule`: logged days render
their entry (a done entry advances the cursor); unlogged past days render
empty; unlogged days marked as rest render rest (cursor unchanged); other
unlogged days render the cycle label at the cursor and advance it. -/
def buildDays (st : TrackerState) (entries : List LogEntry) (today monday : Int)
    (restIdx : List Nat) : List Nat → Int → List DayCell
  | [], _ => []
  | i :: is, cur =>
    let day : Int := monday + i
    match firstEntryFor entries day with
    | some e =>
      let cur' := if e.status = "done" then (cur + 1) % (st.cycle.length : Int) else cur
      .logged e.status e.workout_type (day == today) :: buildDays st entries today monday restIdx is cur'
    | none =>
      if day < today then
        .past (day == today) :: buildDays st entries today monday restIdx is cur
      else if i ∈ restIdx then
        .rest (day == today) :: buildDays st entries today monday restIdx is cur
      else
        .predicted (st.cycle.getD (cur % (st.cycle.length : Int)).toNat "") (day == today) ::
          buildDays st entries today monday restIdx is ((cur + 1) % (st.cycle.length : Int))

/-- `WorkoutTracker._get_week_schedule`: collect unlogged future slots,
compute the remaining rest quota, choose the predicted rest slots, start
the cursor one step behind `position` when today is already logged, and
walk the seven days. -/
def getWeekSchedule (st : TrackerState) (entries : List LogEntry) (today : Int) :
    List DayCell :=
  let monday := mondayOf today
  let unlogged := (List.range 7).filter
    (fun i : Nat =>
      (firstEntryFor entries (monday + (i : Int))).isNone && decide (today ≤ monday + (i : Int)))
  let restTaken := restDaysThisWeek entries today
  let restRemaining := (max 0 (st.rest_days_per_week - (restTaken : Int))).toNat
  let restIdx := restIndices unlogged restRemaining
  let cur0 : Int :=
    if loggedToday st today then ((st.position : Int) - 1) % (st.cycle.length : Int)
    else (st.position : Int)
  buildDays st entries today monday restIdx (List.range 7) cur0

/-- Decision returned for one missed day by the external decision source
(the per-day alert of `_check_missed_days`): done, skip, or rest. -/
inductive Decision where
  | ddone
  | dskip
  | drest
deriving DecidableEq

/-- One iteration of the `_check_missed_days` loop: append the entry for
that day and advance the position only on a done decision. -/
def processDay (cycle : List String) (pos : Nat) (d : Int) (dec : Decision) :
    Nat × LogEntry :=
  let workout := cycle.getD (pos % cycle.length) ""
  match dec with
  | .ddone => ((pos + 1) % cycle.length, ⟨some d, workout, "done"⟩)
  | .drest => (pos, ⟨some d, "rest", "rest"⟩)
  | .dskip => (pos, ⟨some d, workout, "skip"⟩)

/-- The days `range(1, gap)` maps to: every day strictly between the last
log date and today. -/
def missedDays (last today : Int) : List Int :=
  (List.range (today - last - 1).toNat).map (fun i : Nat => last + 1 + (i : Int))

/-- The backfill loop of `_check_missed_days`, with the decision source
modelled as `Int → Option Decision`: `none` is an unavailable source
(in the source, an exception escaping the per-day prompt), which aborts
the loop. Returns the in-loop position, the entries appended so far (log
writes happen immediately, one per processed day), and whether the loop
ran to completion. -/
def runBackfill (decFn : Int → Option Decision) (cycle : List String) :
    List Int → Nat → Nat × List LogEntry × Bool
  | [], pos => (pos, [], true)
  | d :: ds, pos =>
    match decFn d with
    | none => (pos, [], false)
    | some dec =>
      let pe := processDay cycle pos d dec
      let r := runBackfill decFn cycle ds pe.1
      (r.1, pe.2 :: r.2.1, r.2.2)

/-- `WorkoutTracker._check_missed_days`: no-op without a (parsable) last
log date or when the gap is at most one day; otherwise run the backfill
over every strictly-intermediate day. The state write (`position`,
`last_log_date := today - 1`, `save_state`) happens only after the whole
loop finishes, so an aborted run persists the original state while the
per-day log entries written before the abort remain appended. -/
def checkMissedDays (decFn : Int → Option Decision) (st : TrackerState) (today : Int) :
    TrackerState × List LogEntry :=
  match st.last_log_date with
  | none => (st, [])
  | some last =>
    if today - last ≤ 1 then (st, [])
    else
      let r := runBackfill decFn st.cycle (missedDays last today) st.position
      if r.2.2 then
        ({ st with position := r.1, last_log_date := some (today - 1) }, r.2.1)
      else (st, r.2.1)

/-- Python `text.split(",")` on the character list of a string: cut at
every comma, keeping empty pieces (so the result is always non-empty). -/
def pySplitComma : List Char → List (List Char)
  | [] => [[]]
  | c :: rest =>
    let r := pySplitComma rest
    if c = ',' then [] :: r
    else (c :: r.headD []) :: r.tail

/-- Python `w.strip()`: drop leading and trailing whitespace. -/
def pyStrip (cs : List Char) : List Char :=
  ((cs.dropWhile Char.isWhitespace).reverse.dropWhile Char.isWhitespace).reverse

/-- Python `w.lower()` for the label alphabets the app handles. -/
def pyLower (cs : List Char) : List Char :=
  cs.map Char.toLower

/-- `WorkoutTracker.edit_cycle` input normalization:
`[w.strip().lower() for w in text.split(",") if w.strip()]` (a Python
string is truthy iff non-empty). -/
def normalizeCycle (text : String) : List String :=
  ((pySplitComma text.data).filter (fun w => pyStrip w ≠ [])).map
    (fun w => String.mk (pyLower (pyStrip w)))

/-- `WorkoutTracker.edit_cycle` on a confirmed dialog: replace the cycle
and reset the position to 0 when the normalized input is non-empty,
otherwise change nothing. -/
def editCycle (st : TrackerState) (text : String) : TrackerState :=
  let newCycle := normalizeCycle text
  if newCycle ≠ [] then { st with cycle := newCycle, position := 0 } else st

/-- Digit-string parse used by `parsePyInt`: all characters must be
ASCII digits and there must be at least one. -/
def parseDigits (cs : List Char) : Option Nat :=
  if cs ≠ [] ∧ cs.all Char.isDigit then
    some (cs.foldl (fun a c => a * 10 + (c.toNat - 48)) 0)
  else none

/-- Python `int(s)` on an already-stripped string, for the plain
optional-sign decimal forms the dialog can produce: `none` models the
ValueError path. -/
def parsePyInt (cs : List Char) : Option Int :=
  match cs with
  | [] => none
  | c :: rest =>
    if c = '+' then (parseDigits rest).map (fun n => (n : Int))
    else if c = '-' then (parseDigits rest).map (fun n => -(n : Int))
    else (parseDigits (c :: rest)).map (fun n => (n : Int))

/-- `WorkoutTracker.edit_rest_target` on a confirmed dialog:
`int(text.strip())`, accepted only when `0 <= n <= 7`; a ValueError or an
out-of-range value leaves the state unchanged. -/
def editRestTarget (st : TrackerState) (text : String) : TrackerState :=
  match parsePyInt (pyStrip text.data) with
  | none => st
  | some n =>
    if 0 ≤ n ∧ n ≤ 7 then { st with rest_days_per_week := n } else st

/-- Number of done decisions a decision source yields over a list of
days (the number of position advances the backfill performs). -/
def doneCount (f : Int → Decision) (days : List Int) : Nat :=
  (days.filter (fun d => decide (f d = Decision.ddone))).length

/-- C10: when today is already logged (`last_log_date` equals today),
`mark_done` and `mark_rest` are complete no-ops: no log entry is appended
and the state is returned unchanged (so nothing new is persisted). -/
theorem c10_logged_today_guard (st : TrackerState) (d : Int)
    (h : st.last_log_date = some d) :
    markDone st d = (st, []) ∧ markRest st d = (st, []) := by
  simp [markDone, markRest, h]

theorem c10_logged_today_guard_witness :
    markDone ⟨["push"], 0, some 7, 2⟩ 7 = (⟨["push"], 0, some 7, 2⟩, []) ∧
    markRest ⟨["push"], 0, some 7, 2⟩ 7 = (⟨["push"], 0, some 7, 2⟩, []) :=
  c10_logged_today_guard ⟨["push"], 0, some 7, 2⟩ 7 rfl

/-- C5: `edit_cycle` rejects an input whose normalization is empty and
leaves the whole state untouched; otherwise it replaces the cycle with
the normalized labels and resets the position to 0 (other fields
unchanged), where the normalized labels are exactly the comma-separated
pieces with a non-empty strip, each stripped and lower-cased. -/
theorem c5_set_cycle (st : TrackerState) (text : String) :
    (normalizeCycle text = [] → editCycle st text = st) ∧
    (normalizeCycle text ≠ [] →
      (editCycle st text).cycle = normalizeCycle text ∧
      (editCycle st text).position = 0 ∧
      (editCycle st text).last_log_date = st.last_log_date ∧
      (editCycle st text).rest_days_per_week = st.rest_days_per_week) ∧
    (∀ l ∈ normalizeCycle text, ∃ w ∈ pySplitComma text.data,
      pyStrip w ≠ [] ∧ l = String.mk (pyLower (pyStrip w))) ∧
    (∀ w ∈ pySplitComma text.data, pyStrip w ≠ [] →
      String.mk (pyLower (pyStrip w)) ∈ normalizeCycle text) := by
  refine ⟨fun h => by simp [editCycle, h], fun h => ?_, fun l hl => ?_, fun w hw hs => ?_⟩
  · refine ⟨?_, ?_, ?_, ?_⟩ <;> simp [editCycle, h]
  · simp only [normalizeCycle, List.mem_map, List.mem_filter] at hl
    obtain ⟨w, ⟨hw, hs⟩, rfl⟩ := hl
    exact ⟨w, hw, by simpa using hs, rfl⟩
  · simp only [normalizeCycle, List.mem_map, List.mem_filter]
    exact ⟨w, ⟨hw, by simpa using hs⟩, rfl⟩

theorem c5_set_cycle_witness :
    (editCycle ⟨["x"], 5, some 9, 3⟩ " A, b ,, ").cycle = normalizeCycle " A, b ,, " ∧
    (editCycle ⟨["x"], 5, some 9, 3⟩ " A, b ,, ").position = 0 ∧
    editCycle ⟨["x"], 5, some 9, 3⟩ "  , ," = ⟨["x"], 5, some 9, 3⟩ :=
  ⟨((c5_set_cycle ⟨["x"], 5, some 9, 3⟩ " A, b ,, ").2.1 (by decide)).1,
   ((c5_set_cycle ⟨["x"], 5, some 9, 3⟩ " A, b ,, ").2.1 (by decide)).2.1,
   (c5_set_cycle ⟨["x"], 5, some 9, 3⟩ "  , ,").1 (by decide)⟩

/-- C9: `edit_rest_target` accepts exactly the inputs that parse as an
integer n with 0 <= n <= 7, setting `rest_days_per_week` to n; a
non-parsing or out-of-range input leaves the state unchanged. -/
theorem c9_set_rest_target (st : TrackerState) (text : String) :
    (∀ n : Int, parsePyInt (pyStrip text.data) = some n → 0 ≤ n → n ≤ 7 →
      editRestTarget st text = { st with rest_days_per_week := n }) ∧
    (parsePyInt (pyStrip text.data) = none → editRestTarget st text = st) ∧
    (∀ n : Int, parsePyInt (pyStrip text.data) = some n → ¬(0 ≤ n ∧ n ≤ 7) →
      editRestTarget st text = st) := by
  refine ⟨fun n h h0 h7 => ?_, fun h => ?_, fun n h hn => ?_⟩
  · simp [editRestTarget, h, h0, h7]
  · simp [editRestTarget, h]
  · simp [editRestTarget, h, hn]

theorem c9_set_rest_target_witness :
    editRestTarget ⟨["a"], 0, none, 2⟩ " 3 " = ⟨["a"], 0, none, 3⟩ ∧
    editRestTarget ⟨["a"], 0, none, 2⟩ "9" = ⟨["a"], 0, none, 2⟩ ∧
    editRestTarget ⟨["a"], 0, none, 2⟩ "abc" = ⟨["a"], 0, none, 2⟩ :=
  ⟨(c9_set_rest_target ⟨["a"], 0, none, 2⟩ " 3 ").1 3 (by decide) (by decide) (by decide),
   (c9_set_rest_target ⟨["a"], 0, none, 2⟩ "9").2.2 9 (by decide) (by decide),
   (c9_set_rest_target ⟨["a"], 0, none, 2⟩ "abc").2.1 (by decide)⟩

/-- C2: the streak scan stops at the first unparsable date or at the
first date different from the expected date; a done entry at the expected
date increments the count and continues one day back; a rest/skip entry
at the expected date continues one day back without incrementing.
Consequently done entries for today, yesterday and two days ago (three
days ago missing) give streak 3, and done entries for today and two days
ago with yesterday missing give streak 1. -/
theorem c2_streak (today expected : Int) (e : LogEntry) (es : List LogEntry)
    (s : Nat) (w1 w2 w3 : String) :
    (e.date = none → streakLoop (e :: es) expected s = s) ∧
    (∀ d : Int, e.date = some d → d ≠ expected → streakLoop (e :: es) expected s = s) ∧
    (e.date = some expected → e.status = "done" →
      streakLoop (e :: es) expected s = streakLoop es (expected - 1) (s + 1)) ∧
    (e.date = some expected → e.status ≠ "done" →
      streakLoop (e :: es) expected s = streakLoop es (expected - 1) s) ∧
    getStreak [⟨some today, w1, "done"⟩, ⟨some (today - 1), w2, "done"⟩,
      ⟨some (today - 2), w3, "done"⟩] today = 3 ∧
    getStreak [⟨some today, w1, "done"⟩, ⟨some (today - 2), w3, "done"⟩] today = 1 := by
  have h21 : today - 1 - 1 = today - 2 := by ring
  have hne : today - 2 ≠ today - 1 := by omega
  refine ⟨fun h => by simp [streakLoop, h],
          fun d hd hne2 => by simp [streakLoop, hd, hne2],
          fun hd hs => by simp [streakLoop, hd, hs],
          fun hd hs => by simp [streakLoop, hd, hs],
          by simp [getStreak, streakLoop, h21],
          by simp [getStreak, streakLoop, hne]⟩

theorem c2_streak_witness :
    streakLoop [⟨none, "x", "done"⟩] 0 0 = 0 ∧
    getStreak [⟨some 0, "a", "done"⟩, ⟨some (0 - 1), "b", "done"⟩,
      ⟨some (0 - 2), "c", "done"⟩] 0 = 3 ∧
    getStreak [⟨some 0, "a", "done"⟩, ⟨some (0 - 2), "c", "done"⟩] 0 = 1 :=
  ⟨(c2_streak 0 0 ⟨none, "x", "done"⟩ [] 0 "a" "b" "c").1 rfl,
   (c2_streak 0 0 ⟨none, "x", "done"⟩ [] 0 "a" "b" "c").2.2.2.2.1,
   (c2_streak 0 0 ⟨none, "x", "done"⟩ [] 0 "a" "b" "c").2.2.2.2.2⟩

/-- C6 fails as stated: `_rest_days_this_week` does not deduplicate by
date; two rest entries sharing the same in-window date are both counted,
so a date can contribute more than once. -/
theorem c6_counterexample :
    restDaysThisWeek [⟨some 6, "rest", "rest"⟩, ⟨some 6, "rest", "rest"⟩] 6 = 2 ∧
    ¬ restDaysThisWeek [⟨some 6, "rest", "rest"⟩, ⟨some 6, "rest", "rest"⟩] 6 ≤ 1 := by
  decide

/-- Unfolding the accumulator of the `_rest_days_this_week` loop. -/
theorem restLoop_count (monday today : Int) (es : List LogEntry) (c : Nat) :
    restLoop es monday today c =
      c + (es.filter (fun e =>
        match e.date with
        | none => false
        | some d => decide (monday ≤ d ∧ d ≤ today ∧ e.status = "rest"))).length := by
  induction es generalizing c with
  | nil => simp [restLoop]
  | cons e es ih =>
    cases hd : e.date with
    | none => simp [restLoop, hd, ih]
    | some d =>
      by_cases hc : monday ≤ d ∧ d ≤ today ∧ e.status = "rest"
      · simp [restLoop, hd, hc, ih]
        omega
      · simp [restLoop, hd, hc, ih]

/-- C6 amended: `rest_days_this_week` counts every retrieved entry whose
status is rest and whose parsable date falls in [monday_of(today), today]
inclusive, with no per-date deduplication — entries sharing a date are
each counted (unparsable dates are skipped). -/
theorem c6_rest_count_amended (entries : List LogEntry) (today : Int) :
    restDaysThisWeek entries today =
      (entries.filter (fun e =>
        match e.date with
        | none => false
        | some d => decide (mondayOf today ≤ d ∧ d ≤ today ∧ e.status = "rest"))).length := by
  simpa using restLoop_count (mondayOf today) today entries 0

/-- C7 fails in its last step: with cycle [push, pull, legs] and position
0 at the start of the week, done on Monday and Tuesday leaves position 2
and `current_workout` is legs on Wednesday; but marking done on Wednesday
advances position to (2+1) mod 3 = 0, not to 1. -/
theorem c7_counterexample :
    currentWorkout (markDone (markDone ⟨["push", "pull", "legs"], 0, none, 2⟩ 4).1 5).1
      = "legs" ∧
    (markDone (markDone (markDone ⟨["push", "pull", "legs"], 0, none, 2⟩ 4).1 5).1 6).1.position
      ≠ 1 := by
  decide

/-- C7 amended: in the same scenario `current_workout` is legs on
Wednesday, and marking done on Wednesday advances position to 0 (wrapping
past the end of the 3-element cycle, so that `current_workout` returns
push) and sets `last_log_date` to today. -/
theorem c7_end_to_end :
    currentWorkout (markDone (markDone ⟨["push", "pull", "legs"], 0, none, 2⟩ 4).1 5).1
      = "legs" ∧
    (markDone (markDone (markDone ⟨["push", "pull", "legs"], 0, none, 2⟩ 4).1 5).1 6).1.position
      = 0 ∧
    currentWorkout (markDone (markDone (markDone ⟨["push", "pull", "legs"], 0, none, 2⟩ 4).1 5).1 6).1
      = "push" ∧
    (markDone (markDone (markDone ⟨["push", "pull", "legs"], 0, none, 2⟩ 4).1 5).1 6).1.last_log_date
      = some 6 := by
  decide

/-- Behaviour of a confirmed action sequence: the cycle is never touched,
the final position is the initial one advanced once per done action
(mod the cycle length), and the position invariant holds after every
prefix. -/
theorem applyActions_spec (acts : List UserAction) :
    ∀ st : TrackerState, st.cycle ≠ [] → st.position < st.cycle.length →
    confirmedActs st acts = true →
    (applyActions st acts).cycle = st.cycle ∧
    (applyActions st acts).position =
      (st.position + countDones acts) % st.cycle.length ∧
    ∀ n : Nat, (applyActions st (acts.take n)).position < st.cycle.length := by
  induction acts with
  | nil =>
    intro st hc hp _
    refine ⟨rfl, ?_, fun n => ?_⟩
    · simp [applyActions, countDones, Nat.mod_eq_of_lt hp]
    · simpa [applyActions] using hp
  | cons a acts ih =>
    intro st hc hp hconf
    have hn : 0 < st.cycle.length := List.length_pos.mpr hc
    simp only [confirmedActs, Bool.and_eq_true] at hconf
    obtain ⟨hg, hconf'⟩ := hconf
    have hstep :
        ((applyAction st a).1.cycle = st.cycle ∧
         (applyAction st a).1.position < st.cycle.length) ∧
        ((applyAction st a).1.position + countDones acts) % st.cycle.length =
          (st.position + countDones (a :: acts)) % st.cycle.length := by
      cases a with
      | adone d =>
        have hne : st.last_log_date ≠ some d := by simpa using hg
        refine ⟨⟨by simp [applyAction, markDone, hne], ?_⟩, ?_⟩
        · simp only [applyAction, markDone, if_neg hne]
          exact Nat.mod_lt _ hn
        · simp only [applyAction, markDone, if_neg hne]
          have hcnt : countDones (UserAction.adone d :: acts) = countDones acts + 1 := by
            simp [countDones]
          rw [hcnt, Nat.mod_add_mod]
          congr 1
          omega
      | arest d =>
        have hne : st.last_log_date ≠ some d := by simpa using hg
        refine ⟨⟨by simp [applyAction, markRest, hne], ?_⟩, ?_⟩
        · simpa [applyAction, markRest, hne] using hp
        · simp [applyAction, markRest, hne, countDones]
      | askip d =>
        refine ⟨⟨rfl, hp⟩, ?_⟩
        simp [applyAction, countDones]
    obtain ⟨⟨hcy, hpos⟩, hcnt⟩ := hstep
    have ih' := ih (applyAction st a).1 (by rw [hcy]; exact hc)
      (by rw [hcy]; exact hpos) hconf'
    have hfold : applyActions st (a :: acts) = applyActions (applyAction st a).1 acts := rfl
    refine ⟨?_, ?_, fun n => ?_⟩
    · rw [hfold, ih'.1, hcy]
    · rw [hfold, ih'.2.1, hcy, hcnt]
    · cases n with
      | zero => simpa [applyActions] using hp
      | succ n =>
        have := ih'.2.2 n
        rw [hcy] at this
        simpa [applyActions] using this

/-- C1: starting from any state with a non-empty cycle and an in-range
position, any confirmed action sequence leaves the cycle unchanged and
puts the position at (initial + number of dones) mod len(cycle); the
invariant 0 <= position < len(cycle) holds after every prefix of the
sequence; and a single rest or skip action never moves the position. -/
theorem c1_rotation_invariant (st : TrackerState) (acts : List UserAction)
    (hc : st.cycle ≠ []) (hp : st.position < st.cycle.length)
    (hconf : confirmedActs st acts = true) :
    (applyActions st acts).position =
      (st.position + countDones acts) % st.cycle.length ∧
    (∀ n : Nat, (applyActions st (acts.take n)).position < st.cycle.length) ∧
    (∀ d : Int, (applyAction st (.arest d)).1.position = st.position ∧
      (applyAction st (.askip d)).1.position = st.position) := by
  obtain ⟨hcy, hpos, htake⟩ := applyActions_spec acts st hc hp hconf
  refine ⟨hpos, htake, fun d => ⟨?_, rfl⟩⟩
  by_cases h : st.last_log_date = some d <;> simp [applyAction, markRest, h]

theorem c1_rotation_invariant_witness :
    (applyActions ⟨["push", "pull", "legs"], 0, none, 2⟩
      [.adone 0, .arest 1, .adone 2, .askip 3]).position = 2 ∧
    (applyActions ⟨["push", "pull", "legs"], 0, none, 2⟩
      ([.adone 0, .arest 1, .adone 2, .askip 3].take 2)).position < 3 := by
  have h := c1_rotation_invariant ⟨["push", "pull", "legs"], 0, none, 2⟩
    [.adone 0, .arest 1, .adone 2, .askip 3] (by decide) (by decide) (by decide)
  exact ⟨h.1.trans (by decide), h.2.1 2⟩

/-- The backfill loop under a decision source that always answers: it
completes, writes one entry per day dated that day, and advances the
position once per done decision. -/
theorem runBackfill_total (f : Int → Decision) (cycle : List String)
    (hc : cycle ≠ []) :
    ∀ (days : List Int) (pos : Nat), pos < cycle.length →
    (runBackfill (fun d => some (f d)) cycle days pos).2.2 = true ∧
    (runBackfill (fun d => some (f d)) cycle days pos).2.1.map (fun e => e.date) =
      days.map (fun d => some d) ∧
    (runBackfill (fun d => some (f d)) cycle days pos).1 =
      (pos + doneCount f days) % cycle.length := by
  have hn : 0 < cycle.length := List.length_pos.mpr hc
  intro days
  induction days with
  | nil =>
    intro pos hp
    refine ⟨rfl, rfl, ?_⟩
    simp [runBackfill, doneCount, Nat.mod_eq_of_lt hp]
  | cons d ds ih =>
    intro pos hp
    cases hf : f d with
    | ddone =>
      obtain ⟨hok, hmap, hpos⟩ := ih ((pos + 1) % cycle.length) (Nat.mod_lt _ hn)
      refine ⟨?_, ?_, ?_⟩
      · simpa [runBackfill, hf, processDay] using hok
      · simpa [runBackfill, hf, processDay] using hmap
      · have hcnt : doneCount f (d :: ds) = doneCount f ds + 1 := by
          simp [doneCount, hf]
        simp only [runBackfill, hf, processDay]
        rw [hpos, Nat.mod_add_mod, hcnt]
        congr 1
        omega
    | dskip =>
      obtain ⟨hok, hmap, hpos⟩ := ih pos hp
      have hcnt : doneCount f (d :: ds) = doneCount f ds := by
        simp [doneCount, hf]
      refine ⟨?_, ?_, ?_⟩
      · simpa [runBackfill, hf, processDay] using hok
      · simpa [runBackfill, hf, processDay] using hmap
      · simp only [runBackfill, hf, processDay]
        rw [hpos, hcnt]
    | drest =>
      obtain ⟨hok, hmap, hpos⟩ := ih pos hp
      have hcnt : doneCount f (d :: ds) = doneCount f ds := by
        simp [doneCount, hf]
      refine ⟨?_, ?_, ?_⟩
      · simpa [runBackfill, hf, processDay] using hok
      · simpa [runBackfill, hf, processDay] using hmap
      · simp only [runBackfill, hf, processDay]
        rw [hpos, hcnt]

/-- C4: with a recorded last log date, a gap of at most one day makes the
reconciler a no-op; otherwise it appends one entry per day at offsets
1..gap-1 from the last date, dated those days in order, advances the
position once per done decision, and persists last_log_date = today - 1. -/
theorem c4_gap_reconciliation (st : TrackerState) (today last : Int)
    (f : Int → Decision) (hl : st.last_log_date = some last)
    (hc : st.cycle ≠ []) (hp : st.position < st.cycle.length) :
    (today - last ≤ 1 → checkMissedDays (fun d => some (f d)) st today = (st, [])) ∧
    (2 ≤ today - last →
      (checkMissedDays (fun d => some (f d)) st today).2.map (fun e => e.date) =
        (List.range (today - last - 1).toNat).map
          (fun i : Nat => some (last + 1 + (i : Int))) ∧
      (checkMissedDays (fun d => some (f d)) st today).1.position =
        (st.position + doneCount f (missedDays last today)) % st.cycle.length ∧
      (checkMissedDays (fun d => some (f d)) st today).1.last_log_date = some (today - 1) ∧
      (checkMissedDays (fun d => some (f d)) st today).1.cycle = st.cycle) := by
  constructor
  · intro hgap
    simp [checkMissedDays, hl, hgap]
  · intro hgap
    have hng : ¬ (today - last ≤ 1) := by omega
    obtain ⟨hok, hmap, hpos⟩ :=
      runBackfill_total f st.cycle hc (missedDays last today) st.position hp
    have hck : checkMissedDays (fun d => some (f d)) st today =
        ({ st with
            position := (runBackfill (fun d => some (f d)) st.cycle
              (missedDays last today) st.position).1,
            last_log_date := some (today - 1) },
         (runBackfill (fun d => some (f d)) st.cycle
            (missedDays last today) st.position).2.1) := by
      simp only [checkMissedDays, hl, if_neg hng, hok, if_true]
    rw [hck]
    refine ⟨?_, hpos, rfl, rfl⟩
    rw [hmap, missedDays, List.map_map]
    rfl

theorem c4_gap_reconciliation_witness :
    (checkMissedDays (fun _ => some Decision.ddone) ⟨["a"], 0, some 0, 2⟩ 2).2.map
      (fun e => e.date) = [some 1] ∧
    (checkMissedDays (fun _ => some Decision.ddone) ⟨["a"], 0, some 0, 2⟩ 2).1.position = 0 ∧
    (checkMissedDays (fun _ => some Decision.ddone) ⟨["a"], 0, some 0, 2⟩ 2).1.last_log_date
      = some 1 ∧
    checkMissedDays (fun _ => some Decision.ddone) ⟨["a"], 0, some 3, 2⟩ 4 =
      (⟨["a"], 0, some 3, 2⟩, []) := by
  have h := (c4_gap_reconciliation ⟨["a"], 0, some 0, 2⟩ 2 0 (fun _ => Decision.ddone)
    rfl (by decide) (by decide)).2 (by decide)
  have h1 := (c4_gap_reconciliation ⟨["a"], 0, some 3, 2⟩ 4 3 (fun _ => Decision.ddone)
    rfl (by decide) (by decide)).1 (by decide)
  exact ⟨h.1.trans (by decide), h.2.1.trans (by decide), h.2.2.1.trans (by decide), h1⟩

/-- The backfill loop when the decision source first fails at index m:
the loop aborts (never reaching the state write), and exactly the first m
days have produced log entries, dated those days. -/
theorem runBackfill_stops (dec : Int → Option Decision) (cycle : List String) :
    ∀ (days : List Int) (pos : Nat) (m : Nat), m < days.length →
    dec (days.getD m 0) = none → (∀ j, j < m → dec (days.getD j 0) ≠ none) →
    (runBackfill dec cycle days pos).2.2 = false ∧
    (runBackfill dec cycle days pos).2.1.map (fun e => e.date) =
      (days.take m).map (fun d => some d) := by
  intro days
  induction days with
  | nil =>
    intro pos m hm _ _
    simp at hm
  | cons d ds ih =>
    intro pos m hm hfail hok
    cases m with
    | zero =>
      have h0 : dec d = none := by simpa using hfail
      exact ⟨by simp [runBackfill, h0], by simp [runBackfill, h0]⟩
    | succ m =>
      have h0 : dec d ≠ none := by simpa using hok 0 (Nat.succ_pos m)
      obtain ⟨dc, hdc⟩ := Option.ne_none_iff_exists'.mp h0
      have hm' : m < ds.length := by simpa using hm
      have hfail' : dec (ds.getD m 0) = none := by simpa using hfail
      have hok' : ∀ j, j < m → dec (ds.getD j 0) ≠ none := fun j hj => by
        simpa using hok (j + 1) (by omega)
      obtain ⟨hokk, hmapp⟩ := ih (processDay cycle pos d dc).1 m hm' hfail' hok'
      have hdate : (processDay cycle pos d dc).2.date = some d := by
        cases dc <;> rfl
      refine ⟨by simp [runBackfill, hdc, hokk], ?_⟩
      simp [runBackfill, hdc, hdate, hmapp]

/-- C8 amended: if the decision source becomes unavailable after m of the
gap-1 missed days have been decided, the run stops without fabricating
outcomes for the remaining days, and the per-day log entries for the m
decided days remain appended; but the state write happens only after all
gap days are processed, so the persisted state (position, last_log_date)
is the original one, not the state as of the last fully-processed day. -/
theorem c8_partial_progress (st : TrackerState) (today last : Int)
    (dec : Int → Option Decision) (m : Nat)
    (hl : st.last_log_date = some last) (hgap : 2 ≤ today - last)
    (hm : m < (today - last - 1).toNat)
    (hfail : dec (last + 1 + (m : Int)) = none)
    (hok : ∀ j : Nat, j < m → dec (last + 1 + (j : Int)) ≠ none) :
    (checkMissedDays dec st today).1 = st ∧
    (checkMissedDays dec st today).2.map (fun e => e.date) =
      (List.range m).map (fun j : Nat => some (last + 1 + (j : Int))) := by
  have hng : ¬ (today - last ≤ 1) := by omega
  have hlen : (missedDays last today).length = (today - last - 1).toNat := by
    rw [missedDays, List.length_map, List.length_range]
  have hgetD : ∀ k : Nat, k < (today - last - 1).toNat →
      (missedDays last today).getD k 0 = last + 1 + (k : Int) := by
    intro k hk
    have hmd : missedDays last today =
        (List.range (today - last - 1).toNat).map (fun i : Nat => last + 1 + (i : Int)) := rfl
    have hk2 : k < ((List.range (today - last - 1).toNat).map
        (fun i : Nat => last + 1 + (i : Int))).length := by
      rw [List.length_map, List.length_range]
      exact hk
    rw [hmd, List.getD_eq_getElem _ _ hk2, List.getElem_map, List.getElem_range]
  obtain ⟨hok2, hmap⟩ := runBackfill_stops dec st.cycle (missedDays last today)
    st.position m (by rw [hlen]; exact hm)
    (by rw [hgetD m hm]; exact hfail)
    (fun j hj => by rw [hgetD j (by omega)]; exact hok j hj)
  have hck : checkMissedDays dec st today =
      (st, (runBackfill dec st.cycle (missedDays last today) st.position).2.1) := by
    simp only [checkMissedDays, hl, if_neg hng, hok2]
    rfl
  rw [hck]
  refine ⟨rfl, ?_⟩
  rw [hmap]
  have htake : (missedDays last today).take m =
      (List.range m).map (fun i : Nat => last + 1 + (i : Int)) := by
    rw [missedDays, ← List.map_take, List.take_range, Nat.min_eq_left hm.le]
  rw [htake, List.map_map]
  rfl

theorem c8_partial_progress_witness :
    (checkMissedDays (fun d => if d = 1 then some Decision.ddone else none)
      ⟨["push", "pull", "legs"], 0, some 0, 2⟩ 3).1 =
      ⟨["push", "pull", "legs"], 0, some 0, 2⟩ ∧
    (checkMissedDays (fun d => if d = 1 then some Decision.ddone else none)
      ⟨["push", "pull", "legs"], 0, some 0, 2⟩ 3).2.map (fun e => e.date) = [some 1] := by
  have h := c8_partial_progress ⟨["push", "pull", "legs"], 0, some 0, 2⟩ 3 0
    (fun d => if d = 1 then some Decision.ddone else none) 1 rfl (by decide) (by decide)
    (by decide) (fun j hj => by
      have hj0 : j = 0 := by omega
      subst hj0
      decide)
  exact ⟨h.1, h.2.trans (by decide)⟩

/-- C8 fails as stated: with last log at day 0, today day 3, and a
decision source that answers done for day 1 but is unavailable for day 2,
the run appends the day-1 done entry yet persists the original state —
position stays 0 (not the post-done 1) and last_log_date stays day 0 —
so the updated state as of the last fully-processed day is not persisted. -/
theorem c8_counterexample :
    (checkMissedDays (fun d => if d = 1 then some Decision.ddone else none)
      ⟨["push", "pull", "legs"], 0, some 0, 2⟩ 3).2.map (fun e => e.status) = ["done"] ∧
    (checkMissedDays (fun d => if d = 1 then some Decision.ddone else none)
      ⟨["push", "pull", "legs"], 0, some 0, 2⟩ 3).1.position ≠ 1 ∧
    (checkMissedDays (fun d => if d = 1 then some Decision.ddone else none)
      ⟨["push", "pull", "legs"], 0, some 0, 2⟩ 3).1.last_log_date = some 0 := by
  decide

/-- C3: for every k in 1..rest_remaining (with unlogged slots present),
the unlogged-list element at position round(len(unlogged)/rest_remaining * k) - 1,
clamped to the last valid unlogged index, is among the predicted rest
slots; and in the concrete scenario rest target 2, none taken, five
unlogged future slots (Monday/Tuesday logged done, today Wednesday), the
week view marks exactly 2 distinct slots as rest and renders every other
unlogged slot with the rotation label at the running cursor, advancing in
cycle order (pull, legs, push). -/
theorem c3_rest_distribution (unlogged : List Nat) (rr k : Nat)
    (h1 : 1 ≤ k) (h2 : k ≤ rr) (h3 : unlogged ≠ []) :
    pyGet unlogged
      (min ((pyRound (unlogged.length * k) rr : Int) - 1) ((unlogged.length : Int) - 1))
      ∈ restIndices unlogged rr ∧
    getWeekSchedule ⟨["push", "pull", "legs"], 2, some 5, 2⟩
      [⟨some 5, "pull", "done"⟩, ⟨some 4, "push", "done"⟩] 6 =
      [.logged "done" "push" false, .logged "done" "pull" false, .predicted "pull" true,
       .rest false, .predicted "legs" false, .predicted "push" false, .rest false] ∧
    ((getWeekSchedule ⟨["push", "pull", "legs"], 2, some 5, 2⟩
      [⟨some 5, "pull", "done"⟩, ⟨some 4, "push", "done"⟩] 6).filter
        (fun c => c.isRestCell)).length = 2 := by
  refine ⟨?_, by decide, by decide⟩
  rw [restIndices, if_pos ⟨by omega, h3⟩]
  refine List.mem_map.mpr ⟨k - 1, List.mem_range.mpr (by omega), ?_⟩
  rw [Nat.sub_add_cancel h1]

theorem c3_rest_distribution_witness :
    pyGet [2, 3, 4, 5, 6]
      (min ((pyRound ([2, 3, 4, 5, 6].length * 1) 2 : Int) - 1)
           (([2, 3, 4, 5, 6].length : Int) - 1))
      ∈ restIndices [2, 3, 4, 5, 6] 2 :=
  (c3_rest_distribution [2, 3, 4, 5, 6] 2 1 (by decide) (by decide) (by decide)).1
